import Mathlib

/-
Verification of the variable layer of pyfuzzylite (src/fuzzylite/variable.py):
the Variable base class (value setter with range locking, fuzzify,
highest_membership) and the OutputVariable subclass (mirrored range on the
embedded Aggregated set, defuzzify finalization with lock_previous,
default_value and lock_range policies, clear).

Scalars are modelled by the type F below: an IEEE-754 double restricted to
the values the code distinguishes, namely NaN, the two infinities and finite
values (finite doubles are embedded as rationals).  Comparisons follow IEEE
semantics: every comparison involving NaN is false.  The embedding treats the
scalar (non vectorised) semantics of the code, which the spec declares the
primary contract.
-/

namespace PyFuzzylite

/-- IEEE-754 double as the code observes it: NaN, minus infinity, plus
infinity, or a finite value (embedded as a rational). -/
inductive F where
  | nan : F
  | negInf : F
  | posInf : F
  | fin : ℚ → F
deriving DecidableEq

/-- np.isnan on a scalar. -/
def F.isnan : F → Bool
  | .nan => true
  | _ => false

/-- np.isfinite on a scalar. -/
def F.isfinite : F → Bool
  | .fin _ => true
  | _ => false

/-- IEEE strict less-than: false whenever an operand is NaN. -/
def F.lt : F → F → Bool
  | .fin a, .fin b => a < b
  | .negInf, .fin _ => true
  | .negInf, .posInf => true
  | .fin _, .posInf => true
  | _, _ => false

/-- IEEE less-or-equal: false whenever an operand is NaN. -/
def F.le : F → F → Bool
  | .fin a, .fin b => a ≤ b
  | .negInf, .negInf => true
  | .negInf, .fin _ => true
  | .negInf, .posInf => true
  | .fin _, .posInf => true
  | .posInf, .posInf => true
  | _, _ => false

/-- np.maximum: NaN if either operand is NaN, otherwise the larger operand. -/
def F.fmax (x y : F) : F :=
  if x.isnan || y.isnan then F.nan else if F.le x y then y else x

/-- np.minimum: NaN if either operand is NaN, otherwise the smaller operand. -/
def F.fmin (x y : F) : F :=
  if x.isnan || y.isnan then F.nan else if F.le x y then x else y

/-- np.clip(x, lo, hi) = np.minimum(np.maximum(x, lo), hi). -/
def np_clip (x lo hi : F) : F :=
  F.fmin (F.fmax x lo) hi

/-- A linguistic term as the variable layer sees it: a name and a membership
function.  Concrete term kinds live in term.py, outside the verified sources,
so membership is kept abstract; a result of none models a membership call
that raises ValueError (which Variable.fuzzify and highest_membership
suppress). -/
structure Term where
  name : String
  membership : F → Option F

/-- The value the loops of fuzzify and highest_membership work with: the
local variable is initialised to NaN and the membership call is attempted
under suppression of ValueError, so a raising membership leaves NaN. -/
def memDeg (x : F) (t : Term) : F :=
  (t.membership x).getD F.nan

/-- The Variable base class: name, description, enabled flag, range, range
lock, ordered terms and the stored value (the private attribute behind the
value property). -/
structure Variable where
  name : String
  description : String
  enabled : Bool
  minimum : F
  maximum : F
  lock_range : Bool
  terms : List Term
  value : F

/-- The value property setter of Variable: clips to the range when
lock_range is set, stores the raw value otherwise. -/
def Variable.setValue (v : Variable) (x : F) : Variable :=
  { v with value := if v.lock_range then np_clip x v.minimum v.maximum else x }

/-- One iteration of the loop in Variable.fuzzify: the first entry is
rendered without a separator, later entries are prefixed by + or - chosen
from the sign of the membership (NaN and non-negative values choose +).
The fmt argument stands for Op.str, the decimal rendering of a scalar,
which lives in operation.py outside the verified sources. -/
def fuzzifyStep (fmt : F → String) (x : F) (result : List String) (t : Term) : List String :=
  let fx := memDeg x t
  if result.isEmpty then
    result ++ [fmt fx ++ "/" ++ t.name]
  else
    let pm := if F.le (F.fin 0) fx || fx.isnan then "+" else "-"
    result ++ [" " ++ pm ++ " " ++ fmt fx ++ "/" ++ t.name]

/-- Variable.fuzzify: renders the membership of x at every term, joined in
declared order. -/
def Variable.fuzzify (fmt : F → String) (v : Variable) (x : F) : String :=
  String.join (v.terms.foldl (fuzzifyStep fmt x) [])

/-- One iteration of the loop in Variable.highest_membership: the running
pair is replaced when the membership at the current term strictly exceeds
the running degree (an IEEE comparison, so NaN never wins). -/
def hmStep (x : F) (r : F × Option Term) (t : Term) : F × Option Term :=
  if F.lt r.1 (memDeg x t) then (memDeg x t, some t) else r

/-- Variable.highest_membership: the fold of hmStep over the terms starting
from (0.0, None). -/
def Variable.highest_membership (v : Variable) (x : F) : F × Option Term :=
  v.terms.foldl (hmStep x) (F.fin 0, none)

/-- Modelled from the spec: an Activated term (term.py is outside the
verified sources) pairs a term with an activation degree and an implication
norm. -/
structure Activated where
  term : Term
  degree : F
  implication : Option (F → F → F)

/-- Modelled from the spec: the Aggregated fuzzy set (term.py is outside the
verified sources) carries the parent variable name, the range, an optional
aggregation S-norm and the sequence of activated terms. -/
structure Aggregated where
  name : String
  minimum : F
  maximum : F
  aggregation : Option (F → F → F)
  terms : List Activated

/-- Modelled from the spec: Aggregated.clear empties the sequence of
activated terms. -/
def Aggregated.clear (a : Aggregated) : Aggregated :=
  { a with terms := [] }

/-- A defuzzifier as the variable layer sees it: defuzzifier.py is outside
the verified sources, so it is kept abstract as a function from the
aggregated set and the range to a raw crisp result. -/
structure Defuzzifier where
  defuzzify : Aggregated → F → F → F

/-- The OutputVariable subclass.  Its minimum and maximum are properties
delegating to the embedded Aggregated set named fuzzy; name however is the
plain attribute inherited from Variable (the code declares no name
property), so fuzzy keeps its own name field. -/
structure OutputVariable where
  name : String
  description : String
  enabled : Bool
  lock_range : Bool
  terms : List Term
  value : F
  fuzzy : Aggregated
  defuzzifier : Option Defuzzifier
  lock_previous : Bool
  default_value : F
  previous_value : F

/-- The minimum property of OutputVariable: a view onto fuzzy.minimum. -/
def OutputVariable.minimum (v : OutputVariable) : F :=
  v.fuzzy.minimum

/-- The maximum property of OutputVariable: a view onto fuzzy.maximum. -/
def OutputVariable.maximum (v : OutputVariable) : F :=
  v.fuzzy.maximum

/-- The minimum property setter of OutputVariable: writes fuzzy.minimum. -/
def OutputVariable.setMinimum (v : OutputVariable) (x : F) : OutputVariable :=
  { v with fuzzy := { v.fuzzy with minimum := x } }

/-- The maximum property setter of OutputVariable: writes fuzzy.maximum. -/
def OutputVariable.setMaximum (v : OutputVariable) (x : F) : OutputVariable :=
  { v with fuzzy := { v.fuzzy with maximum := x } }

/-- Assignment to the name attribute of an OutputVariable.  The code
declares no name property (despite the comment in its constructor saying
name, minimum and maximum are properties pointing at the Aggregated
object), so only the plain attribute inherited from Variable is written and
fuzzy.name is left untouched. -/
def OutputVariable.setName (v : OutputVariable) (s : String) : OutputVariable :=
  { v with name := s }

/-- The inherited value property setter as it executes on an
OutputVariable: the range read through the minimum and maximum properties
resolves to the fuzzy set. -/
def OutputVariable.setValue (v : OutputVariable) (x : F) : OutputVariable :=
  { v with value := if v.lock_range then np_clip x v.minimum v.maximum else x }

/-- OutputVariable construction: the Aggregated set is created first with
the same name and range, the inherited fields are then initialised (the
stored value is set to NaN through the value setter), and finally the
defuzzifier, locks and default are stored. -/
def OutputVariable.init (name description : String) (enabled : Bool)
    (minimum maximum : F) (lock_range lock_previous : Bool) (default_value : F)
    (aggregation : Option (F → F → F)) (defuzzifier : Option Defuzzifier)
    (terms : List Term) : OutputVariable :=
  let fuzzy : Aggregated :=
    { name := name, minimum := minimum, maximum := maximum
      aggregation := aggregation, terms := [] }
  let v : OutputVariable :=
    { name := name, description := description, enabled := enabled
      lock_range := lock_range, terms := terms, value := F.nan, fuzzy := fuzzy
      defuzzifier := defuzzifier, lock_previous := lock_previous
      default_value := default_value, previous_value := F.nan }
  v.setValue F.nan

/-- OutputVariable.defuzzify, scalar semantics, as a state transformer that
also reports a raised exception message (none on the second component means
normal return).  The steps follow the source: disabled variables return
immediately; a missing defuzzifier raises before any mutation; otherwise
the raw result is computed, previous_value is unconditionally overwritten
with the stored value, NaN raw results are replaced by previous_value when
lock_previous is set, remaining NaN results are replaced by a finite
default_value, and the outcome is stored through the value setter. -/
def OutputVariable.defuzzify (v : OutputVariable) : OutputVariable × Option String :=
  if v.enabled = false then (v, none)
  else
    match v.defuzzifier with
    | none =>
        (v, some ("expected a defuzzifier in output variable " ++ v.name ++ ", but found None"))
    | some d =>
        let value0 := d.defuzzify v.fuzzy v.minimum v.maximum
        let v1 : OutputVariable := { v with previous_value := v.value }
        let value1 := if v1.lock_previous then
            (if value0.isnan then v1.previous_value else value0)
          else value0
        let value2 := if v1.default_value.isnan = false then
            (if value1.isnan then v1.default_value else value1)
          else value1
        (v1.setValue value2, none)

/-- OutputVariable.clear: empties the aggregated set and resets
previous_value and value (through the value setter) to NaN. -/
def OutputVariable.clear (v : OutputVariable) : OutputVariable :=
  let v1 : OutputVariable := { v with fuzzy := v.fuzzy.clear }
  let v2 : OutputVariable := { v1 with previous_value := F.nan }
  v2.setValue F.nan

/-- Statement of the fuzzification output format following the words of the
spec: one entry mu/name per term in declared order, the second and later
entries preceded by a separator chosen by the sign of the membership (+ for
non-negative or NaN, - for negative). -/
def specFuzzify (fmt : F → String) (ts : List Term) (x : F) : String :=
  match ts with
  | [] => ""
  | t :: rest =>
      fmt (memDeg x t) ++ "/" ++ t.name ++
        String.join (rest.map (fun s =>
          (if F.le (F.fin 0) (memDeg x s) || (memDeg x s).isnan then " + " else " - ") ++
            fmt (memDeg x s) ++ "/" ++ s.name))

/-- The crisp value that a normal run of defuzzify stores, as a function of
the state before the call and of the raw defuzzifier result: the
lock_previous replacement (NaN replaced by the value held before the call,
which by then already sits in previous_value), the default replacement
(remaining NaN replaced by a finite default_value), and the range lock
applied by the value setter. -/
def preLockValue (v : OutputVariable) (raw : F) : F :=
  let value1 := if v.lock_previous then (if raw.isnan then v.value else raw) else raw
  if v.default_value.isnan = false then
    (if value1.isnan then v.default_value else value1)
  else value1

/-- The stored value as above, with the range lock of the value setter
applied on top of preLockValue. -/
def finalValue (v : OutputVariable) (raw : F) : F :=
  if v.lock_range then np_clip (preLockValue v raw) v.minimum v.maximum
  else preLockValue v raw

/-- A term whose membership is constantly one half. -/
def tHalf : Term := Term.mk "half" (fun _ => some (F.fin (mkRat 1 2)))

/-- A term whose membership is constantly seven tenths. -/
def tSeven : Term := Term.mk "seven" (fun _ => some (F.fin (mkRat 7 10)))

/-- A second term whose membership is constantly seven tenths. -/
def tSeven2 : Term := Term.mk "seven2" (fun _ => some (F.fin (mkRat 7 10)))

/-- A term whose membership is constantly zero. -/
def tZero : Term := Term.mk "zero" (fun _ => some (F.fin 0))

/-- A term whose membership is constantly minus one. -/
def tNeg : Term := Term.mk "neg" (fun _ => some (F.fin (-1)))

/-- A term whose membership is constantly NaN. -/
def tNan : Term := Term.mk "nanterm" (fun _ => some F.nan)

/-- A term whose membership always raises ValueError. -/
def tRaise : Term := Term.mk "raising" (fun _ => none)

/-- Spec scenario 5, first pass: lock_range with range [0, 1], finite
default, lock_previous set, the stored value of the prior pass is 0.8 and
the defuzzifier returns NaN. -/
def c1pass1 : OutputVariable :=
  { name := "steer", description := "", enabled := true, lock_range := true
    terms := [], value := F.fin (mkRat 8 10)
    fuzzy := { name := "steer", minimum := F.fin 0, maximum := F.fin 1
               aggregation := none, terms := [] }
    defuzzifier := some (Defuzzifier.mk (fun _ _ _ => F.nan))
    lock_previous := true, default_value := F.fin (mkRat 1 2), previous_value := F.fin (mkRat 8 10) }

/-- Spec scenario 5, second pass: same variable, the defuzzifier now
returns the finite value 1.7 which lies above the range. -/
def c1pass2 : OutputVariable :=
  { c1pass1 with defuzzifier := some (Defuzzifier.mk (fun _ _ _ => F.fin (mkRat 17 10))) }

/-- A state on which the raw defuzzification result is plus infinity while
lock_previous is set, the value of the prior pass is finite (one half) and
the default value is finite (zero): every replacement policy should fire on
a non-finite result according to the documentation. -/
def c2state : OutputVariable :=
  { name := "power", description := "", enabled := true, lock_range := false
    terms := [], value := F.fin (mkRat 1 2)
    fuzzy := { name := "power", minimum := F.fin 0, maximum := F.fin 1
               aggregation := none, terms := [] }
    defuzzifier := some (Defuzzifier.mk (fun _ _ _ => F.posInf))
    lock_previous := true, default_value := F.fin 0, previous_value := F.nan }

/-- A state whose stored value is NaN while previous_value holds the finite
record one half, with a defuzzifier returning a finite raw result. -/
def c3state : OutputVariable :=
  { name := "power", description := "", enabled := true, lock_range := false
    terms := [], value := F.nan
    fuzzy := { name := "power", minimum := F.fin 0, maximum := F.fin 1
               aggregation := none, terms := [] }
    defuzzifier := some (Defuzzifier.mk (fun _ _ _ => F.fin (mkRat 3 10)))
    lock_previous := false, default_value := F.nan, previous_value := F.fin (mkRat 1 2) }

/-- An enabled output variable without a defuzzifier. -/
def c7state : OutputVariable :=
  { name := "power", description := "", enabled := true, lock_range := false
    terms := [], value := F.fin (mkRat 1 4)
    fuzzy := { name := "power", minimum := F.fin 0, maximum := F.fin 1
               aggregation := none, terms := [] }
    defuzzifier := none
    lock_previous := false, default_value := F.nan, previous_value := F.fin (mkRat 1 8) }

/-- The output variable of the name-mirroring claim: constructed with name a
and then renamed to b through attribute assignment. -/
def c8state : OutputVariable :=
  (OutputVariable.init "a" "" true (F.fin 0) (F.fin 1) false false F.nan
    none none []).setName "b"

/-- A disabled output variable without a defuzzifier. -/
def c9state : OutputVariable :=
  { c7state with enabled := false }

/-- A plain variable with range locking enabled, used to exercise the value
setter. -/
def w5vara : Variable :=
  { name := "a", description := "", enabled := true, minimum := F.fin 0
    maximum := F.fin 1, lock_range := true, terms := [], value := F.nan }

/-- A plain variable with range locking disabled. -/
def w5varb : Variable :=
  { w5vara with lock_range := false }

/-- An output variable with range locking on [0, 1] whose defuzzifier
returns 1.7. -/
def w5out : OutputVariable :=
  { name := "steer", description := "", enabled := true, lock_range := true
    terms := [], value := F.nan
    fuzzy := { name := "steer", minimum := F.fin 0, maximum := F.fin 1
               aggregation := none, terms := [] }
    defuzzifier := some (Defuzzifier.mk (fun _ _ _ => F.fin (mkRat 17 10)))
    lock_previous := false, default_value := F.nan, previous_value := F.nan }

/-- A variable none of whose terms has a positive membership anywhere: one
membership is zero, one negative, one NaN and one raises. -/
def w10a : Variable :=
  { name := "a", description := "", enabled := true, minimum := F.fin 0
    maximum := F.fin 1, lock_range := false, terms := [tZero, tNeg, tNan, tRaise]
    value := F.nan }

/-- A variable with positive memberships and a tie for the maximum. -/
def w10b : Variable :=
  { w10a with terms := [tHalf, tSeven, tSeven2] }

theorem F.lt_irrefl (a : F) : F.lt a a = false := by
  cases a <;> simp [F.lt]

theorem F.lt_trans {a b c : F} (h1 : F.lt a b = true) (h2 : F.lt b c = true) :
    F.lt a c = true := by
  cases a <;> cases b <;> cases c <;> simp_all [F.lt]
  exact h1.trans h2

theorem np_clip_bounds {x lo hi : F} (hlohi : F.le lo hi = true)
    (hfin : (np_clip x lo hi).isfinite = true) :
    F.le lo (np_clip x lo hi) = true ∧ F.le (np_clip x lo hi) hi = true := by
  cases x <;> cases lo <;> cases hi <;>
    simp_all [np_clip, F.fmax, F.fmin, F.le, F.isnan, F.isfinite] <;>
    split_ifs at * <;> simp_all [F.le, F.isfinite] <;> linarith

theorem string_foldl_shift (l : List String) (r : String) :
    l.foldl (fun a b => a ++ b) r = r ++ l.foldl (fun a b => a ++ b) "" := by
  induction l generalizing r with
  | nil => simp [String.append_empty]
  | cons a l ih =>
    rw [List.foldl_cons, List.foldl_cons, ih (r ++ a), ih ("" ++ a)]
    have h0 : ("" ++ a : String) = a := rfl
    rw [h0, String.append_assoc]

theorem string_join_cons (a : String) (l : List String) :
    String.join (a :: l) = a ++ String.join l := by
  show List.foldl (fun a b => a ++ b) "" (a :: l) = _
  rw [List.foldl_cons]
  have h0 : ("" ++ a : String) = a := rfl
  rw [h0, string_foldl_shift]
  rfl

theorem fuzzify_fold (fmt : F → String) (x : F) (ts : List Term) (r : List String) (hr : r ≠ []) :
    ts.foldl (fuzzifyStep fmt x) r =
      r ++ ts.map (fun s =>
        " " ++ (if F.le (F.fin 0) (memDeg x s) || (memDeg x s).isnan then "+" else "-") ++ " " ++
          fmt (memDeg x s) ++ "/" ++ s.name) := by
  induction ts generalizing r with
  | nil => simp
  | cons t ts ih =>
    rw [List.foldl_cons]
    have hne : r.isEmpty = false := by
      cases r with
      | nil => exact absurd rfl hr
      | cons a l => rfl
    have hstep : fuzzifyStep fmt x r t =
        r ++ [" " ++ (if F.le (F.fin 0) (memDeg x t) || (memDeg x t).isnan then "+" else "-") ++ " " ++
          fmt (memDeg x t) ++ "/" ++ t.name] := by
      simp [fuzzifyStep, hne]
    rw [hstep, ih _ (by simp)]
    simp

theorem string_join_map_eq (fmt : F → String) (x : F) (ts : List Term) :
    String.join (ts.map (fun s =>
        " " ++ (if F.le (F.fin 0) (memDeg x s) || (memDeg x s).isnan then "+" else "-") ++ " " ++
          fmt (memDeg x s) ++ "/" ++ s.name)) =
    String.join (ts.map (fun s =>
        (if F.le (F.fin 0) (memDeg x s) || (memDeg x s).isnan then " + " else " - ") ++
          fmt (memDeg x s) ++ "/" ++ s.name)) := by
  have hfun : ∀ s : Term,
      " " ++ (if F.le (F.fin 0) (memDeg x s) || (memDeg x s).isnan then "+" else "-") ++ " " ++
        fmt (memDeg x s) ++ "/" ++ s.name =
      (if F.le (F.fin 0) (memDeg x s) || (memDeg x s).isnan then " + " else " - ") ++
        fmt (memDeg x s) ++ "/" ++ s.name := by
    intro s
    by_cases h : (F.le (F.fin 0) (memDeg x s) || (memDeg x s).isnan) = true
    · rw [if_pos h, if_pos h]; rfl
    · rw [if_neg h, if_neg h]; rfl
  rw [List.map_congr_left (fun s _ => hfun s)]

theorem hm_fold (x : F) (ts : List Term) (m : F) (o : Option Term) :
    (ts.foldl (hmStep x) (m, o) = (m, o) ∧ ∀ t ∈ ts, F.lt m (memDeg x t) = false)
    ∨ (∃ l1 t l2, ts = l1 ++ t :: l2
        ∧ ts.foldl (hmStep x) (m, o) = (memDeg x t, some t)
        ∧ F.lt m (memDeg x t) = true
        ∧ (∀ s ∈ ts, F.lt (memDeg x t) (memDeg x s) = false)
        ∧ (∀ s ∈ l1, memDeg x s ≠ memDeg x t)) := by
  induction ts generalizing m o with
  | nil => left; exact ⟨rfl, by simp⟩
  | cons a ts ih =>
    rw [List.foldl_cons]
    cases ha : F.lt m (memDeg x a) with
    | true =>
      have hstep : hmStep x (m, o) a = (memDeg x a, some a) := by simp [hmStep, ha]
      rw [hstep]
      rcases ih (memDeg x a) (some a) with ⟨heq, hall⟩ | ⟨l1, t, l2, hsplit, heq, hgt, hmax, hfirst⟩
      · right
        refine ⟨[], a, ts, rfl, heq, ha, ?_, by simp⟩
        intro s hs
        rcases List.mem_cons.mp hs with rfl | hs'
        · exact F.lt_irrefl _
        · exact hall s hs'
      · right
        refine ⟨a :: l1, t, l2, by rw [hsplit]; rfl, heq, F.lt_trans ha hgt, ?_, ?_⟩
        · intro s hs
          rcases List.mem_cons.mp hs with rfl | hs'
          · cases hc : F.lt (memDeg x t) (memDeg x s) with
            | false => rfl
            | true =>
              have hcontra := F.lt_trans hgt hc
              rw [F.lt_irrefl] at hcontra
              exact Bool.noConfusion hcontra
          · exact hmax s hs'
        · intro s hs
          rcases List.mem_cons.mp hs with rfl | hs'
          · intro h
            rw [h] at hgt
            rw [F.lt_irrefl] at hgt
            exact Bool.noConfusion hgt
          · exact hfirst s hs'
    | false =>
      have hstep : hmStep x (m, o) a = (m, o) := by simp [hmStep, ha]
      rw [hstep]
      rcases ih m o with ⟨heq, hall⟩ | ⟨l1, t, l2, hsplit, heq, hgt, hmax, hfirst⟩
      · left
        refine ⟨heq, ?_⟩
        intro s hs
        rcases List.mem_cons.mp hs with rfl | hs'
        · exact ha
        · exact hall s hs'
      · right
        refine ⟨a :: l1, t, l2, by rw [hsplit]; rfl, heq, hgt, ?_, ?_⟩
        · intro s hs
          rcases List.mem_cons.mp hs with rfl | hs'
          · cases hc : F.lt (memDeg x t) (memDeg x s) with
            | false => rfl
            | true =>
              have hcontra := F.lt_trans hgt hc
              rw [ha] at hcontra
              exact Bool.noConfusion hcontra
          · exact hmax s hs'
        · intro s hs
          rcases List.mem_cons.mp hs with rfl | hs'
          · intro h
            have h2 : F.lt m (memDeg x s) = true := by rw [h]; exact hgt
            rw [h2] at ha
            exact Bool.noConfusion ha
          · exact hfirst s hs'

theorem defuzzify_raise (v : OutputVariable) (he : v.enabled = true)
    (hd : v.defuzzifier = none) :
    v.defuzzify =
      (v, some ("expected a defuzzifier in output variable " ++ v.name ++ ", but found None")) := by
  unfold OutputVariable.defuzzify
  rw [hd, if_neg (by simp [he])]

theorem defuzzify_run (v : OutputVariable) (d : Defuzzifier)
    (he : v.enabled = true) (hd : v.defuzzifier = some d) :
    v.defuzzify =
      ({ v with previous_value := v.value
                value := finalValue v (d.defuzzify v.fuzzy v.minimum v.maximum) }, none) := by
  unfold OutputVariable.defuzzify
  rw [hd, if_neg (by simp [he])]
  simp [OutputVariable.setValue, finalValue, preLockValue,
    OutputVariable.minimum, OutputVariable.maximum]

/-- Claim C1: on an output variable with lock_previous set whose stored
value from the prior pass is finite, a NaN raw defuzzification result makes
defuzzify store that prior value again (lock_previous takes precedence over
default_value); and on a pass whose raw result is finite with lock_range
set, the stored value is the clamp of the raw result to the range, with
lock_previous not consulted (the conclusion does not depend on
previous_value).  The clip-stability hypothesis on the prior value holds for
any value that was itself stored through the range-locking setter. -/
theorem fl_C1 :
    (∀ (v : OutputVariable) (d : Defuzzifier) (q : ℚ),
      v.enabled = true → v.defuzzifier = some d → v.lock_previous = true →
      v.value = F.fin q →
      d.defuzzify v.fuzzy v.minimum v.maximum = F.nan →
      (v.lock_range = true → np_clip (F.fin q) v.minimum v.maximum = F.fin q) →
      (v.defuzzify).1.value = F.fin q ∧ (v.defuzzify).2 = none)
    ∧ (∀ (v : OutputVariable) (d : Defuzzifier) (r : ℚ),
      v.enabled = true → v.defuzzifier = some d → v.lock_range = true →
      d.defuzzify v.fuzzy v.minimum v.maximum = F.fin r →
      (v.defuzzify).1.value = np_clip (F.fin r) v.minimum v.maximum
      ∧ (v.defuzzify).2 = none) := by
  constructor
  · intro v d q he hd hlp hval hraw hclip
    rw [defuzzify_run v d he hd, hraw]
    refine ⟨?_, rfl⟩
    cases hlr : v.lock_range with
    | true => simp [finalValue, preLockValue, hlp, hval, F.isnan, hlr, hclip hlr]
    | false => simp [finalValue, preLockValue, hlp, hval, F.isnan, hlr]
  · intro v d r he hd hlr hraw
    rw [defuzzify_run v d he hd, hraw]
    refine ⟨?_, rfl⟩
    simp [finalValue, preLockValue, F.isnan, hlr]

theorem fl_C1_witness :
    ((c1pass1.defuzzify).1.value = F.fin (mkRat 8 10) ∧ (c1pass1.defuzzify).2 = none)
    ∧ ((c1pass2.defuzzify).1.value = np_clip (F.fin (mkRat 17 10)) c1pass2.minimum c1pass2.maximum
        ∧ (c1pass2.defuzzify).2 = none)
    ∧ np_clip (F.fin (mkRat 17 10)) c1pass2.minimum c1pass2.maximum = F.fin 1 := by
  refine ⟨fl_C1.1 c1pass1 (Defuzzifier.mk (fun _ _ _ => F.nan)) (mkRat 8 10) rfl rfl rfl rfl rfl
      (fun _ => by decide),
    fl_C1.2 c1pass2 (Defuzzifier.mk (fun _ _ _ => F.fin (mkRat 17 10))) (mkRat 17 10) rfl rfl rfl rfl,
    by decide⟩

/-- Claim C2 evaluated on the code: with lock_previous set, a finite prior
value of one half and a finite default value of zero, a raw defuzzification
result of plus infinity is stored unchanged, because the finalization steps
test np.isnan only; neither the previous value nor the default replaces the
infinity, contradicting the claim (and the documentation of the class,
which says both policies fire on any non-finite result). -/
theorem fl_C2_bug :
    (c2state.defuzzify).1.value = F.posInf
    ∧ (c2state.defuzzify).2 = none
    ∧ (c2state.defuzzify).1.previous_value = F.fin (mkRat 1 2)
    ∧ c2state.lock_previous = true
    ∧ c2state.default_value = F.fin 0 :=
  ⟨rfl, rfl, rfl, rfl, rfl⟩

/-- Claim C3, counterexample: on a state whose held value is NaN and whose
previous_value records the finite value one half, defuzzify overwrites
previous_value with NaN instead of leaving it unchanged, because the
assignment in the code is unconditional. -/
theorem fl_C3_cex :
    c3state.value = F.nan ∧ c3state.previous_value = F.fin (mkRat 1 2)
    ∧ (c3state.defuzzify).2 = none
    ∧ (c3state.defuzzify).1.previous_value = F.nan
    ∧ (c3state.defuzzify).1.previous_value ≠ c3state.previous_value := by
  refine ⟨rfl, rfl, rfl, rfl, ?_⟩
  decide

/-- Claim C3 as amended: during a normal defuzzify call, previous_value is
unconditionally set to the value the variable held before the call, even
when that value is NaN; previous_value therefore records the value of the
previous pass, not necessarily the last finite defuzzification result. -/
theorem fl_C3 (v : OutputVariable) (d : Defuzzifier)
    (he : v.enabled = true) (hd : v.defuzzifier = some d) :
    (v.defuzzify).1.previous_value = v.value ∧ (v.defuzzify).2 = none := by
  rw [defuzzify_run v d he hd]
  exact ⟨rfl, rfl⟩

theorem fl_C3_witness :
    (c3state.defuzzify).1.previous_value = c3state.value
    ∧ (c3state.defuzzify).2 = none :=
  fl_C3 c3state (Defuzzifier.mk (fun _ _ _ => F.fin (mkRat 3 10))) rfl rfl

/-- Claim C4: clear empties the aggregated fuzzy set and resets both
previous_value and the stored value to NaN, for every output variable and
thus regardless of lock_range, lock_previous and default_value (the value
setter clips NaN to NaN when the range is locked). -/
theorem fl_C4 (v : OutputVariable) :
    (v.clear).fuzzy.terms = [] ∧ (v.clear).previous_value = F.nan
    ∧ (v.clear).value = F.nan := by
  unfold OutputVariable.clear OutputVariable.setValue Aggregated.clear
  cases hlr : v.lock_range <;> simp [hlr, np_clip, F.fmax, F.fmin, F.isnan]

/-- Claim C5: the value setter stores the clamp of the assigned value when
lock_range is set and the raw value otherwise; consequently an output
variable with lock_range set whose defuzzify call returned normally holds a
value between minimum and maximum whenever that value is finite (under the
spec invariant that the range is ordered). -/
theorem fl_C5 :
    (∀ (v : Variable) (x : F),
      (v.lock_range = true → (v.setValue x).value = np_clip x v.minimum v.maximum)
      ∧ (v.lock_range = false → (v.setValue x).value = x))
    ∧ (∀ v : OutputVariable,
      v.enabled = true → v.lock_range = true → F.le v.minimum v.maximum = true →
      (v.defuzzify).2 = none → ((v.defuzzify).1.value).isfinite = true →
      F.le v.minimum ((v.defuzzify).1.value) = true
      ∧ F.le ((v.defuzzify).1.value) v.maximum = true) := by
  constructor
  · intro v x
    constructor <;> intro h <;> simp [Variable.setValue, h]
  · intro v he hlr hb hnone hfin
    cases hd : v.defuzzifier with
    | none =>
      rw [defuzzify_raise v he hd] at hnone
      exact absurd hnone (by simp)
    | some d =>
      have hy : finalValue v (d.defuzzify v.fuzzy v.minimum v.maximum) =
          np_clip (preLockValue v (d.defuzzify v.fuzzy v.minimum v.maximum))
            v.minimum v.maximum := by
        simp [finalValue, hlr]
      rw [defuzzify_run v d he hd] at hfin ⊢
      simp only [hy] at hfin ⊢
      exact np_clip_bounds hb hfin

theorem fl_C5_witness :
    ((w5vara.setValue (F.fin 2)).value = np_clip (F.fin 2) w5vara.minimum w5vara.maximum)
    ∧ ((w5varb.setValue (F.fin 2)).value = F.fin 2)
    ∧ (F.le w5out.minimum ((w5out.defuzzify).1.value) = true
       ∧ F.le ((w5out.defuzzify).1.value) w5out.maximum = true) :=
  ⟨(fl_C5.1 w5vara (F.fin 2)).1 rfl, (fl_C5.1 w5varb (F.fin 2)).2 rfl,
    fl_C5.2 w5out rfl rfl (by decide) rfl (by decide)⟩

/-- Claim C6: fuzzify renders exactly one entry mu/name per term in
declared order, with separators before the second and later entries chosen
by the sign of the membership (+ for non-negative or NaN, - for negative,
a raising membership rendered as NaN), stated as equality with a rendering
that follows the words of the spec, for every number formatting
function. -/
theorem fl_C6 (fmt : F → String) (v : Variable) (x : F) :
    v.fuzzify fmt x = specFuzzify fmt v.terms x := by
  unfold Variable.fuzzify
  cases hts : v.terms with
  | nil => rfl
  | cons t rest =>
    have hspec : specFuzzify fmt (t :: rest) x =
        fmt (memDeg x t) ++ "/" ++ t.name ++
          String.join (rest.map (fun s =>
            (if F.le (F.fin 0) (memDeg x s) || (memDeg x s).isnan then " + " else " - ") ++
              fmt (memDeg x s) ++ "/" ++ s.name)) := rfl
    have h0 : fuzzifyStep fmt x [] t = [fmt (memDeg x t) ++ "/" ++ t.name] := by
      simp [fuzzifyStep]
    rw [List.foldl_cons, h0, fuzzify_fold fmt x rest _ (by simp), hspec]
    rw [show ([fmt (memDeg x t) ++ "/" ++ t.name] ++ rest.map (fun s =>
        " " ++ (if F.le (F.fin 0) (memDeg x s) || (memDeg x s).isnan then "+" else "-") ++ " " ++
          fmt (memDeg x s) ++ "/" ++ s.name)) =
        (fmt (memDeg x t) ++ "/" ++ t.name) :: rest.map (fun s =>
        " " ++ (if F.le (F.fin 0) (memDeg x s) || (memDeg x s).isnan then "+" else "-") ++ " " ++
          fmt (memDeg x s) ++ "/" ++ s.name) from rfl]
    rw [string_join_cons, string_join_map_eq]

/-- Claim C7: an enabled output variable without a defuzzifier raises on
defuzzify, and the error is raised before any mutation, so the whole state
(value, previous_value and the aggregated set included) is unchanged. -/
theorem fl_C7 (v : OutputVariable) (he : v.enabled = true)
    (hd : v.defuzzifier = none) :
    (v.defuzzify).1 = v ∧ ∃ msg, (v.defuzzify).2 = some msg := by
  rw [defuzzify_raise v he hd]
  exact ⟨rfl, _, rfl⟩

theorem fl_C7_witness :
    c7state.enabled = true ∧ c7state.defuzzifier = none
    ∧ (c7state.defuzzify).1 = c7state ∧ ∃ msg, (c7state.defuzzify).2 = some msg :=
  ⟨rfl, rfl, (fl_C7 c7state rfl rfl).1, (fl_C7 c7state rfl rfl).2⟩

/-- Claim C8 evaluated on the code: renaming an output variable does not
propagate to the embedded aggregated set, because the class declares no
name property even though its constructor comment says it does; the
minimum and maximum properties do mirror their writes into the aggregated
set. -/
theorem fl_C8_bug :
    c8state.name = "b" ∧ c8state.fuzzy.name = "a"
    ∧ (c8state.setMinimum (F.fin 2)).fuzzy.minimum = F.fin 2
    ∧ (c8state.setMaximum (F.fin 3)).fuzzy.maximum = F.fin 3 :=
  ⟨rfl, rfl, rfl, rfl⟩

/-- Claim C9: a disabled output variable returns immediately from
defuzzify without raising, even without a defuzzifier, and the state is
unchanged. -/
theorem fl_C9 (v : OutputVariable) (hdis : v.enabled = false) :
    v.defuzzify = (v, none) := by
  unfold OutputVariable.defuzzify
  rw [if_pos hdis]

theorem fl_C9_witness :
    c9state.enabled = false ∧ c9state.defuzzifier = none
    ∧ c9state.defuzzify = (c9state, none) :=
  ⟨rfl, rfl, fl_C9 c9state rfl⟩

/-- Claim C10: highest_membership returns (0.0, None) when no membership is
strictly positive (NaN and raising memberships never selected, since IEEE
comparisons with NaN are false); otherwise it returns a maximal membership
degree (no term has a strictly larger one) paired with the first term in
declared order attaining it (no earlier term has the same degree). -/
theorem fl_C10 (v : Variable) (x : F) :
    ((∀ t ∈ v.terms, F.lt (F.fin 0) (memDeg x t) = false) →
      v.highest_membership x = (F.fin 0, none))
    ∧ ((∃ t ∈ v.terms, F.lt (F.fin 0) (memDeg x t) = true) →
      ∃ l1 t l2, v.terms = l1 ++ t :: l2
        ∧ v.highest_membership x = (memDeg x t, some t)
        ∧ F.lt (F.fin 0) (memDeg x t) = true
        ∧ (∀ s ∈ v.terms, F.lt (memDeg x t) (memDeg x s) = false)
        ∧ (∀ s ∈ l1, memDeg x s ≠ memDeg x t)) := by
  unfold Variable.highest_membership
  constructor
  · intro hall
    rcases hm_fold x v.terms (F.fin 0) none with ⟨heq, _⟩ | ⟨l1, t, l2, hsplit, _, hgt, _, _⟩
    · exact heq
    · exfalso
      have ht : t ∈ v.terms := by
        rw [hsplit]
        exact List.mem_append_right _ (List.mem_cons_self _ _)
      rw [hall t ht] at hgt
      exact Bool.noConfusion hgt
  · rintro ⟨t0, ht0, hgt0⟩
    rcases hm_fold x v.terms (F.fin 0) none with ⟨_, hall⟩ | h
    · rw [hall t0 ht0] at hgt0
      exact Bool.noConfusion hgt0
    · exact h

theorem fl_C10_witness :
    w10a.highest_membership (F.fin 0) = (F.fin 0, none)
    ∧ (∃ l1 t l2, w10b.terms = l1 ++ t :: l2
        ∧ w10b.highest_membership (F.fin 0) = (memDeg (F.fin 0) t, some t)
        ∧ F.lt (F.fin 0) (memDeg (F.fin 0) t) = true
        ∧ (∀ s ∈ w10b.terms, F.lt (memDeg (F.fin 0) t) (memDeg (F.fin 0) s) = false)
        ∧ (∀ s ∈ l1, memDeg (F.fin 0) s ≠ memDeg (F.fin 0) t)) := by
  refine ⟨(fl_C10 w10a (F.fin 0)).1 (by decide),
    (fl_C10 w10b (F.fin 0)).2 ⟨tSeven, ?_, by decide⟩⟩
  show tSeven ∈ [tHalf, tSeven, tSeven2]
  exact List.mem_cons_of_mem _ (List.mem_cons_self _ _)

end PyFuzzylite
